import Mathlib

/-!
Shallow embedding of the cellSP repository (files
`cellSP/characterize/_instant.py` and `cellSP/preprocessing/_impute.py`)
and verification of the specification claims about it.

Numpy arrays of p-values are modelled as a shape-carrying matrix over `ℚ`
(floating point rounding is not modelled; all arithmetic identities claimed
here are exact at this level).  External libraries (InSTAnT, sklearn,
MAGIC, and the sibling module `_bicluster` which is not part of the
sources) are modelled as opaque function parameters gathered in oracle
structures.
-/

namespace CellSP

/-- A numpy 2-D array: an explicit shape together with an entry function.
`entry` is total; reads outside the shape model numpy out-of-bounds
behaviour only to the extent the claims need (the code never relies on
them). -/
structure Mat where
  rows : Nat
  cols : Nat
  entry : Nat → Nat → ℚ

/-- Default matrix used for `List.getD` on lists of matrices. -/
def defaultMat : Mat := ⟨0, 0, fun _ _ => 1⟩

/-- Numpy tuple indexing `cell[i, j]`. -/
def tupleIndex (M : Mat) (i j : Nat) : ℚ := M.entry i j

/-- Numpy row extraction `cell[i]`, a 1-D view. -/
def rowOf (M : Mat) (i : Nat) : Nat → ℚ := fun j => M.entry i j

/-- Numpy chained indexing `cell[i][j]`: take row `i`, then component `j`. -/
def chainIndex (M : Mat) (i j : Nat) : ℚ := rowOf M i j

/-- In-place assignment `M[i][j] = v` on a numpy array. -/
def matSet (M : Mat) (i j : Nat) (v : ℚ) : Mat :=
  { M with entry := fun p q => if p = i ∧ q = j then v else M.entry p q }

/-- `np.ones((r, c))`. -/
def npOnes (r c : Nat) : Mat := ⟨r, c, fun _ _ => 1⟩

/-- Elementwise transform of a matrix; used for `-np.log10(pval_matrix)`,
whose transcendental kernel is supplied as the function `f`. -/
def neglogMat (f : ℚ → ℚ) (M : Mat) : Mat :=
  ⟨M.rows, M.cols, fun p q => f (M.entry p q)⟩

/-- Python `list.index` on a list of strings: position of the first
occurrence.  The Python call raises on a missing element; the embedding
returns the length in that case, and every theorem that depends on the
value assumes membership, matching the repository's implicit invariant
that CPB gene names occur in `geneList`. -/
def pyIndex (l : List String) (x : String) : Nat :=
  match l with
  | [] => 0
  | y :: ys => if y = x then 0 else pyIndex ys x + 1

/-- One row of the `cpb_results` table (`adata_st.uns['cpb_results']`),
restricted to the columns the code reads. -/
structure CpbRow where
  gene_id1 : String
  gene_id2 : String
  g1g2 : String
  p_val_cond : ℚ
deriving DecidableEq

/-- Default row used for `List.getD` on CPB tables. -/
def defaultCpb : CpbRow := ⟨"", "", "", 1⟩

/-- The assertion on line 129 of `_instant.py`:
`assert cell[index1, index2] == cell[index1][index2]`. -/
def assertCheck (cell : Mat) (i1 i2 : Nat) : Bool :=
  decide (tupleIndex cell i1 i2 = chainIndex cell i1 i2)

/-- Inner loop of the p-value extraction
(`for pos, cell in enumerate(pp_pvalues)`): writes
`pval_matrix[pos][n] = cell[index1][index2]` for each cell, after the
assertion; an assertion failure aborts with `AssertionError`. -/
def fillRowPair (i1 i2 n : Nat) : List Mat → Nat → Mat → Except String Mat
  | [], _, M => .ok M
  | cell :: rest, pos, M =>
    if assertCheck cell i1 i2 then
      fillRowPair i1 i2 n rest (pos + 1) (matSet M pos n (chainIndex cell i1 i2))
    else
      .error "AssertionError"

/-- Outer loop of the p-value extraction
(`for n, i in cpb_results.reset_index().iterrows()`): for the `n`-th
retained CPB row, looks up both gene indices in `geneList` and fills
column `n` of `pval_matrix`. -/
def fillPval (gl : List String) (pp : List Mat) : List CpbRow → Nat → Mat → Except String Mat
  | [], _, M => .ok M
  | r :: rest, n, M =>
    match fillRowPair (pyIndex gl r.gene_id1) (pyIndex gl r.gene_id2) n pp 0 M with
    | .error e => .error e
    | .ok M2 => fillPval gl pp rest (n + 1) M2

/-- One row of the top-cliques table `adata_st.uns[f"nV{n_vertices}_cliques"]`,
restricted to the `Vertices` column (a comma-separated list of gene names),
the only one the code reads. -/
structure CliqueRow where
  vertices : String
deriving DecidableEq

/-- One row of the output table `adata_st.uns['instant_fsm']`, with columns
`genes`, `#cells` and `uIDs`. -/
structure FsmRow where
  genes : String
  numCells : Nat
  uIDs : String
deriving DecidableEq

/-- One row of the biclustering result DataFrame `df_results`.  The two
columns that the Python code casts with `astype('str')` are kept numeric
here; no claim depends on their textual rendering. -/
structure BicRow where
  gene_pairs : String
  genes : String
  uIDs : String
  numCells : Nat
  combined : Nat
  pre_cell_expansion : ℚ
  post_cell_expansion : ℚ
  instant_average : ℚ
  instant_score : ℚ
deriving DecidableEq

/-- Default row used for `List.getD` on bicluster tables. -/
def defaultBicRow : BicRow := ⟨"", "", "", 0, 0, 0, 0, 0, 0⟩

/-- The annotated data object (`AnnData`), restricted to the fields the
two characterization functions read and write.  The `uns` entries that the
code selects by formatted key (`pp_test_d{distance_threshold}_pvalues`,
`nV{n_vertices}_cliques`) are stored already selected for the call's
`distance_threshold` and `n_vertices`. -/
structure AnnDataST where
  obs_names : List String
  uns_geneList : List String
  uns_pp_pvalues : List Mat
  uns_cliques : List CliqueRow
  uns_cpb_results : Option (List CpbRow)
  uns_instant_fsm : Option (List FsmRow)
  uns_instant_biclustering : Option (List BicRow)

/-- `adata.n_obs`: AnnData defines it as the number of observations. -/
def AnnDataST.n_obs (a : AnnDataST) : Nat := a.obs_names.length

/-- Python `itertools.combinations(xs, 2)`: all pairs `(xs[i], xs[j])`
with `i < j`, in lexicographic position order. -/
def combinations2 {α : Type} : List α → List (α × α)
  | [] => []
  | x :: xs => xs.map (fun y => (x, y)) ++ combinations2 xs

/-- The per-cell test in `analyse_fsm`:
`all([cell[i][j] < alpha for i, j in list(combinations(gene_indexes, 2))])`. -/
def cliqueAll (alpha : ℚ) (cell : Mat) (idxs : List Nat) : Bool :=
  (combinations2 idxs).all (fun ij => decide (chainIndex cell ij.1 ij.2 < alpha))

/-- The uid-collecting loop in `analyse_fsm`
(`for n, cell in enumerate(...pvalues): if all(...): uids.append(cell_ids[n])`). -/
def collectUids (alpha : ℚ) (cell_ids : List String) (idxs : List Nat) :
    List Mat → Nat → List String
  | [], _ => []
  | cell :: rest, n =>
    if cliqueAll alpha cell idxs then
      cell_ids.getD n "" :: collectUids alpha cell_ids idxs rest (n + 1)
    else
      collectUids alpha cell_ids idxs rest (n + 1)

/-- Line 78 of `_instant.py`:
`[list(adata_st.uns['geneList']).index(x) for x in i.Vertices.split(",")]`. -/
def fsmGeneIndexes (gl : List String) (vertices : String) : List Nat :=
  (vertices.splitOn ",").map (fun x => pyIndex gl x)

/-- `analyse_fsm` (lines 58-87 of `_instant.py`): select the `top_k`
cliques, keep those supported by at least 5 cells whose pairwise p-values
all fall below `alpha`, and store the resulting table in
`uns['instant_fsm']`. -/
def analyse_fsm (adata : AnnDataST) (top_k : Nat) (alpha : ℚ) : AnnDataST :=
  let df_topk := adata.uns_cliques.take top_k
  let rows := df_topk.filterMap (fun c =>
    let idxs := fsmGeneIndexes adata.uns_geneList c.vertices
    let uids := collectUids alpha adata.obs_names idxs adata.uns_pp_pvalues 0
    if 5 ≤ uids.length then
      some (FsmRow.mk c.vertices uids.length (String.intercalate "," uids))
    else
      none)
  { adata with uns_instant_fsm := some rows }

/-- One bicluster returned by the external LAS model: row indices, column
indices and a score. -/
structure Bicluster where
  rows : List Nat
  cols : List Nat
  score : ℚ

/-- The external code `bicluster_instant` calls but whose implementation
lives outside these sources: the LAS model (`_bicluster` /
`LargeAverageSubmatrices`), `_expand_bicluster_rows`, `_get_sprawl_score`,
`_log_combs`, `_expand_bicluster`, sklearn's `scale`, and `np.log10`.
Each is an opaque function of exactly the arguments the call site
passes. -/
structure BicOracle where
  lasRun : Nat → Nat → Bool → Nat → Mat → List Bicluster
  expandRows : Mat → List Nat → List Nat → List Nat
  sprawlScore : List Nat → Mat → List Nat → List ℚ → List ℚ → ℚ
  logCombs : Nat → List ℚ
  scaleMat : Mat → Mat
  expandBicluster : Mat → Mat → List String → List Nat → List ℚ → List ℚ →
    List String → (List BicRow × List String) → (List BicRow × List String)
  neglog : ℚ → ℚ

/-- Python `str.strip("()")`: remove leading and trailing parentheses. -/
def stripParens (s : String) : String :=
  let isParen := fun c => c = '(' || c = ')'
  String.mk (((s.data.dropWhile isParen).reverse.dropWhile isParen).reverse)

/-- Line 133 of `_instant.py`: reformat a `g1g2` label
`f"({x.split(',')[0]},{x.split(',')[1][1:]})"`. -/
def reformatPair (x : String) : String :=
  let parts := x.splitOn ","
  "(" ++ parts.headD "" ++ "," ++ (parts.getD 1 "").drop 1 ++ ")"

/-- `np.mean(pval_matrix[rows][:, cols])`: mean over the selected rows and
columns. -/
def matMean (M : Mat) (rs cs : List Nat) : ℚ :=
  ((rs.map (fun r => (cs.map (fun c => M.entry r c)).sum)).sum) /
    ((rs.length : ℚ) * (cs.length : ℚ))

/-- The row built for one admitted bicluster (lines 149-154 of
`_instant.py`), after the in-place row expansion
`bicluster.rows = _expand_bicluster_rows(...)`. -/
def mkBicRow (o : BicOracle) (M Mscaled : Mat) (uids : List String)
    (gene_pairs : List String) (col_range : List Nat)
    (col_log_combs row_log_combs : List ℚ) (b : Bicluster) : BicRow :=
  let bicluster_pairs := b.cols.map (fun c => gene_pairs.getD c "")
  let bicluster_genes :=
    ((bicluster_pairs.map (fun p => (stripParens p).splitOn ",")).flatten).eraseDups
  let newRows := o.expandRows M b.rows b.cols
  let bicluster_cells := newRows.map (fun r => uids.getD r "")
  let calculated_score := o.sprawlScore newRows Mscaled col_range col_log_combs row_log_combs
  { gene_pairs := String.intercalate ", " bicluster_pairs
    genes := String.intercalate "," bicluster_genes
    uIDs := String.intercalate "," bicluster_cells
    numCells := bicluster_cells.length
    combined := 0
    pre_cell_expansion := b.score
    post_cell_expansion := calculated_score
    instant_average := matMean M newRows b.cols
    instant_score := calculated_score }

/-- The admission loop over `biclustering.biclusters` (lines 147-154):
only biclusters with more than 2 columns contribute a row. -/
def buildRows (o : BicOracle) (M Mscaled : Mat) (uids : List String)
    (gene_pairs : List String) (col_range : List Nat)
    (col_log_combs row_log_combs : List ℚ) : List Bicluster → List BicRow
  | [] => []
  | b :: bs =>
    if 2 < b.cols.length then
      mkBicRow o M Mscaled uids gene_pairs col_range col_log_combs row_log_combs b ::
        buildRows o M Mscaled uids gene_pairs col_range col_log_combs row_log_combs bs
    else
      buildRows o M Mscaled uids gene_pairs col_range col_log_combs row_log_combs bs

/-- `len(x.split(','))` on a row's `uIDs` string: the cell count the final
filter uses. -/
def cellCountOf (r : BicRow) : Nat := (r.uIDs.splitOn ",").length

/-- The `while True` expansion loop (lines 159-163): run one
`_expand_bicluster` step and stop as soon as a step leaves the number of
result rows unchanged, returning that step's output.  The Python loop has
no fuel; `fuel` only makes the embedding total, and the termination
theorem shows a sufficient fuel always exists under the spec's growth
model. -/
def expandLoopFuel (step : List BicRow × List String → List BicRow × List String) :
    Nat → (List BicRow × List String) → (List BicRow × List String)
  | 0, s => s
  | fuel + 1, s =>
    let s2 := step s
    if s2.1.length = s.1.length then s2 else expandLoopFuel step fuel s2

/-- Modelled from the spec: `_expand_bicluster` lives in the sibling
module `cellSP/characterize/_bicluster.py`, which is not part of these
sources.  Section 4 of the spec describes it as "a convergence loop that
repeatedly grows row/column sets by a score threshold until no further
growth occurs" over finite candidate sets, so a step never shrinks the
result table and preserves the finite upper bound `B` on its size. -/
def SpecExpandStep (step : List BicRow × List String → List BicRow × List String)
    (B : Nat) : Prop :=
  (∀ s, s.1.length ≤ (step s).1.length) ∧
  (∀ s, s.1.length ≤ B → (step s).1.length ≤ B)

/-- The error message raised on line 115 of `_instant.py`. -/
def cpbMissingMsg : String :=
  "CPB results not found in adata_st.uns. Please run `run_instant` first."

/-- `bicluster_instant` (lines 89-167 of `_instant.py`).  An error value
carries the message and the state of `adata_st` at raise time (the object
is mutated in place in Python, so this is what the caller observes).
The dead locals of the Python body (`pair_genes`, `df_pval`,
`df_pval_scaled`, timing) are not modelled. -/
def bicluster_instant (o : BicOracle) (adata : AnnDataST)
    (num_biclusters randomized_searches : Nat) (scale_data : Bool)
    (alpha : ℚ) (cell_threshold : Nat) (threads : Nat) (fuel : Nat) :
    Except (String × AnnDataST) AnnDataST :=
  match adata.uns_cpb_results with
  | none => .error (cpbMissingMsg, adata)
  | some cpb0 =>
    let cpb := cpb0.filter (fun r => decide (r.p_val_cond ≤ alpha))
    match fillPval adata.uns_geneList adata.uns_pp_pvalues cpb 0
        (npOnes adata.n_obs cpb.length) with
    | .error e => .error (e, adata)
    | .ok M0 =>
      let M := neglogMat o.neglog M0
      let gene_pairs := cpb.map (fun r => reformatPair r.g1g2)
      let biclustering := o.lasRun num_biclusters randomized_searches scale_data threads M
      let Mscaled := o.scaleMat M
      let uids := adata.obs_names
      let row_log_combs := (o.logCombs M.rows).drop 1
      let col_log_combs := (o.logCombs M.cols).drop 1
      let col_range := List.range' 1 M.cols
      let rows0 := buildRows o M Mscaled uids gene_pairs col_range col_log_combs
        row_log_combs biclustering
      let looped := expandLoopFuel
        (o.expandBicluster M Mscaled uids col_range col_log_combs row_log_combs gene_pairs)
        fuel (rows0, [])
      let final := looped.1.filter (fun r => decide (cell_threshold < cellCountOf r))
      .ok { adata with uns_instant_biclustering := some final }

/-- Boundary events performed by `run_instant`, in program order. -/
inductive RIEvent where
  | writeFile (name : String)
  | loadPreprocessed (name : String)
  | runPP3DSlice
  | runPP3D
  | runPP
  | runGlobalColoc
  | runFsm
  | readFile (name : String)
  | removeFile (name : String)
deriving DecidableEq

/-- Does an event write a file? -/
def RIEvent.isWrite : RIEvent → Bool
  | .writeFile _ => true
  | _ => false

/-- Does an event read the named file? -/
def RIEvent.isReadOf (s : String) : RIEvent → Bool
  | .readFile t => s == t
  | _ => false

/-- Does an event shell out to remove the named file? -/
def RIEvent.isRemoveOf (s : String) : RIEvent → Bool
  | .removeFile t => s == t
  | _ => false

/-- The generated temporary name
`f".cellSP_st_\x7brandom.randint(0, int(1e7))\x7d.h5ad"`, with the drawn
random integer as parameter. -/
def tempName (rand : Nat) : String := ".cellSP_st_" ++ toString rand ++ ".h5ad"

/-- The proximal-pairs call selected on lines 43-49: 3D slice / 3D / 2D. -/
def ppEvents (has_absZ is_sliced : Bool) : List RIEvent :=
  if has_absZ then
    (if is_sliced then [.runPP3DSlice] else [.runPP3D])
  else
    [.runPP]

/-- The boundary-event trace of `run_instant` (lines 15-55 of
`_instant.py`): serialize only when `filename` is `None` (the write on
line 40 is inside that branch), load, run the tests, read the file back,
and remove it when `remove_file` is set. -/
def run_instant_trace (has_absZ is_sliced : Bool) (filename : Option String)
    (rand : Nat) (remove_file : Bool) : List RIEvent :=
  let fname := filename.getD (tempName rand)
  (if filename.isNone then [.writeFile fname] else [])
    ++ [.loadPreprocessed fname]
    ++ ppEvents has_absZ is_sliced
    ++ [.runGlobalColoc, .runFsm, .readFile fname]
    ++ (if remove_file then [.removeFile fname] else [])

/-- The fields of an `AnnData` object that `impute` can touch: the
expression matrix, names, unstructured annotations. -/
structure AnnCore where
  X : Mat
  obs_names : List String
  var_names : List String
  uns : List (String × String)

/-- An `AnnData` object for `impute`: its core fields plus the `raw`
slot.  Assigning `adata.raw = adata` stores a copy of the object's
current core (AnnData's `Raw` semantics). -/
structure AnnDataM where
  core : AnnCore
  raw : Option AnnCore

/-- `impute` (lines 5-23 of `_impute.py`): run MAGIC (modelled by
`fit_transform`, returning the `.X` of the transformed object), store the
pre-imputation object in `raw`, then overwrite `X`. -/
def impute (fit_transform : AnnDataM → Mat) (adata : AnnDataM) : AnnDataM :=
  let X_magic := fit_transform adata
  let adata1 : AnnDataM := { adata with raw := some adata.core }
  { adata1 with core := { adata1.core with X := X_magic } }

/-- The assertion on line 129 compares the same entry through two numpy
indexing spellings, so it can never fail. -/
theorem assertCheck_true (cell : Mat) (i1 i2 : Nat) : assertCheck cell i1 i2 = true := by
  simp [assertCheck, tupleIndex, chainIndex, rowOf]

/-- Characterization of the inner extraction loop: it always succeeds,
preserves the shape, and overwrites exactly column `n` at the row range
covered by the enumerated cells, with the chained-indexed p-value. -/
theorem fillRowPair_spec (i1 i2 n : Nat) :
    ∀ (pp : List Mat) (pos0 : Nat) (M : Mat),
    ∃ M2, fillRowPair i1 i2 n pp pos0 M = Except.ok M2 ∧ M2.rows = M.rows ∧
      M2.cols = M.cols ∧
      ∀ p q, M2.entry p q =
        if q = n ∧ pos0 ≤ p ∧ p - pos0 < pp.length then
          (pp.getD (p - pos0) defaultMat).entry i1 i2
        else M.entry p q := by
  intro pp
  induction pp with
  | nil =>
    intro pos0 M
    exact ⟨M, rfl, rfl, rfl, by intro p q; simp⟩
  | cons cell rest ih =>
    intro pos0 M
    obtain ⟨M2, hok, hr, hc, hent⟩ :=
      ih (pos0 + 1) (matSet M pos0 n (chainIndex cell i1 i2))
    refine ⟨M2, ?_, ?_, ?_, ?_⟩
    · simpa [fillRowPair, assertCheck_true] using hok
    · simpa [matSet] using hr
    · simpa [matSet] using hc
    · intro p q
      rw [hent]
      simp only [matSet, List.length_cons]
      by_cases hq : q = n
      · subst hq
        by_cases hp : pos0 + 1 ≤ p
        · by_cases hlen : p - (pos0 + 1) < rest.length
          · rw [if_pos ⟨rfl, hp, hlen⟩, if_pos ⟨rfl, by omega, by omega⟩]
            have harith : p - pos0 = (p - (pos0 + 1)) + 1 := by omega
            rw [harith, List.getD_cons_succ]
          · rw [if_neg (fun h => hlen h.2.2),
              if_neg (fun h => absurd h.1 (by omega : ¬ p = pos0)),
              if_neg (fun h => absurd h.2.2 (by omega))]
        · rw [if_neg (fun h => hp h.2.1)]
          by_cases hpp : p = pos0
          · rw [if_pos ⟨hpp, rfl⟩, if_pos ⟨rfl, by omega, by omega⟩]
            subst hpp
            simp [chainIndex, rowOf, Nat.sub_self]
          · rw [if_neg (fun h => hpp h.1),
              if_neg (fun h => absurd h.2.1 (by omega : ¬ pos0 ≤ p))]
      · rw [if_neg (fun h => hq h.1), if_neg (fun h => hq h.2),
          if_neg (fun h => hq h.1)]

/-- Characterization of the full extraction double loop: it always
succeeds (the assertion cannot fire), preserves the shape, and writes
into column `n0 + k` of the matrix, for the `k`-th CPB row, the p-value
of that row's gene pair in each enumerated cell, looked up at the
`geneList` positions of the two gene names. -/
theorem fillPval_spec (gl : List String) (pp : List Mat) :
    ∀ (cpb : List CpbRow) (n0 : Nat) (M : Mat),
    ∃ M2, fillPval gl pp cpb n0 M = Except.ok M2 ∧ M2.rows = M.rows ∧
      M2.cols = M.cols ∧
      ∀ p q, M2.entry p q =
        if n0 ≤ q ∧ q - n0 < cpb.length ∧ p < pp.length then
          (pp.getD p defaultMat).entry
            (pyIndex gl ((cpb.getD (q - n0) defaultCpb).gene_id1))
            (pyIndex gl ((cpb.getD (q - n0) defaultCpb).gene_id2))
        else M.entry p q := by
  intro cpb
  induction cpb with
  | nil =>
    intro n0 M
    exact ⟨M, rfl, rfl, rfl, by intro p q; simp⟩
  | cons r rest ih =>
    intro n0 M
    obtain ⟨M1, hok1, hr1, hc1, hent1⟩ :=
      fillRowPair_spec (pyIndex gl r.gene_id1) (pyIndex gl r.gene_id2) n0 pp 0 M
    obtain ⟨M2, hok2, hr2, hc2, hent2⟩ := ih (n0 + 1) M1
    refine ⟨M2, ?_, by rw [hr2, hr1], by rw [hc2, hc1], ?_⟩
    · simp [fillPval, hok1, hok2]
    · intro p q
      rw [hent2]
      simp only [List.length_cons]
      by_cases hq1 : n0 + 1 ≤ q
      · by_cases hrest : q - (n0 + 1) < rest.length
        · by_cases hp : p < pp.length
          · rw [if_pos ⟨hq1, hrest, hp⟩, if_pos ⟨by omega, by omega, hp⟩]
            have harith : q - n0 = (q - (n0 + 1)) + 1 := by omega
            rw [harith, List.getD_cons_succ]
          · rw [if_neg (fun h => hp h.2.2), if_neg (fun h => hp h.2.2), hent1,
              if_neg (fun h => hp (by simpa using h.2.2))]
        · rw [if_neg (fun h => hrest h.2.1),
            if_neg (fun h => absurd h.2.1 (by omega)), hent1,
            if_neg (fun h => absurd h.1 (by omega : ¬ q = n0))]
      · rw [if_neg (fun h => hq1 h.1), hent1]
        by_cases hq0 : q = n0
        · by_cases hp : p < pp.length
          · rw [if_pos ⟨hq0, by omega, by simpa using hp⟩,
              if_pos ⟨by omega, by omega, hp⟩]
            have hz : q - n0 = 0 := by omega
            rw [hz, List.getD_cons_zero]
            simp
          · rw [if_neg (fun h => hp (by simpa using h.2.2)),
              if_neg (fun h => hp h.2.2)]
        · rw [if_neg (fun h => hq0 h.1),
            if_neg (fun h => absurd h.1 (by omega : ¬ n0 ≤ q))]

/-- The extraction loop never raises: the assertion always holds. -/
theorem fillPval_ok (gl : List String) (pp : List Mat) (cpb : List CpbRow)
    (n0 : Nat) (M : Mat) : ∃ M2, fillPval gl pp cpb n0 M = Except.ok M2 := by
  obtain ⟨M2, hok, _⟩ := fillPval_spec gl pp cpb n0 M
  exact ⟨M2, hok⟩

/-- `pyIndex` returns a position of the element whenever it occurs. -/
theorem pyIndex_getElem (l : List String) (g : String) (h : g ∈ l) :
    l[pyIndex l g]? = some g := by
  induction l with
  | nil => cases h
  | cons y ys ih =>
    by_cases hy : y = g
    · simp [pyIndex, hy]
    · have hmem : g ∈ ys := by
        rcases List.mem_cons.mp h with hg | hg
        · exact absurd hg.symm hy
        · exact hg
      simp [pyIndex, hy, ih hmem]

/-- `pyIndex` returns the first such position. -/
theorem pyIndex_first (l : List String) (g : String) :
    ∀ k, k < pyIndex l g → l[k]? ≠ some g := by
  induction l with
  | nil => intro k hk; simp [pyIndex] at hk
  | cons y ys ih =>
    intro k hk
    by_cases hy : y = g
    · simp [pyIndex, hy] at hk
    · rw [pyIndex, if_neg hy] at hk
      match k with
      | 0 => simpa using hy
      | j + 1 =>
        rw [List.getElem?_cons_succ]
        exact ih j (by omega)

/-- The uid-collecting loop of `analyse_fsm` keeps, in enumeration order,
the identifiers of exactly the cells passing the all-pairs test. -/
theorem collectUids_spec (alpha : ℚ) (ids : List String) (idxs : List Nat) :
    ∀ (pp : List Mat) (n0 : Nat),
    collectUids alpha ids idxs pp n0 =
      ((List.enumFrom n0 pp).filter (fun pc => cliqueAll alpha pc.2 idxs)).map
        (fun pc => ids.getD pc.1 "") := by
  intro pp
  induction pp with
  | nil => intro n0; simp [collectUids]
  | cons cell rest ih =>
    intro n0
    by_cases h : cliqueAll alpha cell idxs <;>
      simp [collectUids, h, List.enumFrom, List.filter_cons, ih]

/-- The admission loop equals a filter (columns `> 2`) followed by the
row construction. -/
theorem buildRows_eq_filter (o : BicOracle) (M Ms : Mat) (u gp : List String)
    (cr : List Nat) (cl rl : List ℚ) :
    ∀ bs, buildRows o M Ms u gp cr cl rl bs =
      (bs.filter (fun b => decide (2 < b.cols.length))).map
        (mkBicRow o M Ms u gp cr cl rl) := by
  intro bs
  induction bs with
  | nil => rfl
  | cons b bs ih =>
    by_cases h : 2 < b.cols.length <;> simp [buildRows, h, List.filter_cons, ih]

/-- Under the spec's growth model, the expansion loop reaches, within
`B + 1` steps, an iteration that leaves the table length unchanged, and
returns that iteration's output. -/
theorem expandLoopFuel_converges
    (step : List BicRow × List String → List BicRow × List String) (B : Nat)
    (hmono : ∀ s, s.1.length ≤ (step s).1.length)
    (hbound : ∀ s, s.1.length ≤ B → (step s).1.length ≤ B) :
    ∀ (fuel : Nat) (s : List BicRow × List String),
      s.1.length ≤ B → B < fuel + s.1.length →
      ∃ d, expandLoopFuel step fuel s = step d ∧ (step d).1.length = d.1.length := by
  intro fuel
  induction fuel with
  | zero => intro s hle hlt; omega
  | succ f ih =>
    intro s hle hlt
    by_cases h : (step s).1.length = s.1.length
    · exact ⟨s, by simp [expandLoopFuel, h], h⟩
    · have h1 : s.1.length < (step s).1.length := lt_of_le_of_ne (hmono s) (Ne.symm h)
      obtain ⟨d, hd, hfix⟩ := ih (step s) (hbound s hle) (by omega)
      exact ⟨d, by simp [expandLoopFuel, h, hd], hfix⟩

/-- Whenever `cpb_results` is present, `bicluster_instant` completes and
stores the filtered post-expansion table. -/
theorem bicluster_instant_ok (o : BicOracle) (adata : AnnDataST) (nb rs : Nat)
    (sd : Bool) (alpha : ℚ) (ct th fuel : Nat) (cpb0 : List CpbRow)
    (hcpb : adata.uns_cpb_results = some cpb0) :
    ∃ looped : List BicRow × List String,
      bicluster_instant o adata nb rs sd alpha ct th fuel =
        Except.ok { adata with uns_instant_biclustering := some (looped.1.filter (fun r => decide (ct < cellCountOf r))) } := by
  obtain ⟨M0, hM0⟩ := fillPval_ok adata.uns_geneList adata.uns_pp_pvalues
    (cpb0.filter (fun r => decide (r.p_val_cond ≤ alpha))) 0
    (npOnes adata.n_obs (cpb0.filter (fun r => decide (r.p_val_cond ≤ alpha))).length)
  simp only [bicluster_instant, hcpb, hM0]
  exact ⟨_, rfl⟩

/-- A concrete oracle for instantiating the external-library parameters. -/
def trivOracle : BicOracle where
  lasRun := fun _ _ _ _ _ => []
  expandRows := fun _ r _ => r
  sprawlScore := fun _ _ _ _ _ => 0
  logCombs := fun _ => []
  scaleMat := fun M => M
  expandBicluster := fun _ _ _ _ _ _ _ s => s
  neglog := fun _ => 0

/-- A concrete data object with no `cpb_results` table. -/
def adataNoCpb : AnnDataST where
  obs_names := ["c1"]
  uns_geneList := ["a", "b"]
  uns_pp_pvalues := []
  uns_cliques := []
  uns_cpb_results := none
  uns_instant_fsm := none
  uns_instant_biclustering := none

/-- A concrete per-cell p-value matrix that is not symmetric. -/
def asymCell : Mat := ⟨2, 2, fun i j => if i = 0 ∧ j = 1 then 1 else 2⟩

/-- A concrete data object with a one-row `cpb_results` table. -/
def adataEx : AnnDataST where
  obs_names := ["c1", "c2"]
  uns_geneList := ["a", "b"]
  uns_pp_pvalues := [asymCell, asymCell]
  uns_cliques := [⟨"a,b"⟩]
  uns_cpb_results := some [⟨"a", "b", "a, b", 0⟩]
  uns_instant_fsm := none
  uns_instant_biclustering := none

/-- Claim C1: `bicluster_instant` raises exactly when the prerequisite
table `cpb_results` is absent from `adata_st.uns`, and every error value
carries the unchanged input object: the validation check precedes any
annotation write, so nothing is mutated on the error path. -/
theorem bicluster_instant_error_iff_no_cpb (o : BicOracle) (adata : AnnDataST)
    (nb rs : Nat) (sd : Bool) (alpha : ℚ) (ct th fuel : Nat) :
    (bicluster_instant o adata nb rs sd alpha ct th fuel =
        Except.error (cpbMissingMsg, adata) ↔ adata.uns_cpb_results = none) ∧
    (∀ e, bicluster_instant o adata nb rs sd alpha ct th fuel = Except.error e →
      e = (cpbMissingMsg, adata)) := by
  cases hcpb : adata.uns_cpb_results with
  | none =>
    constructor
    · simp [bicluster_instant, hcpb]
    · intro e he
      simp only [bicluster_instant, hcpb] at he
      exact (Except.error.inj he).symm
  | some cpb0 =>
    obtain ⟨looped, hok⟩ := bicluster_instant_ok o adata nb rs sd alpha ct th fuel cpb0 hcpb
    rw [hok]
    constructor
    · simp [hcpb]
    · intro e he
      exact absurd he (by simp)

/-- Witness for claim C1 at a concrete oracle and data object. -/
theorem bicluster_instant_error_iff_no_cpb_witness :
    (bicluster_instant trivOracle adataNoCpb 1 1 true 1 5 1 3 =
        Except.error (cpbMissingMsg, adataNoCpb) ↔ adataNoCpb.uns_cpb_results = none) ∧
    (∀ e, bicluster_instant trivOracle adataNoCpb 1 1 true 1 5 1 3 = Except.error e →
      e = (cpbMissingMsg, adataNoCpb)) :=
  bicluster_instant_error_iff_no_cpb trivOracle adataNoCpb 1 1 true 1 5 1 3

/-- Claim C2 (amended): the assertion during p-value extraction compares
`cell[index1, index2]` with `cell[index1][index2]` — the same entry read
through tuple and chained indexing — so it always holds and the
extraction loop never raises; it does not compare `(index1, index2)`
against `(index2, index1)` and therefore enforces no symmetry. -/
theorem assert_tuple_eq_chain (cell : Mat) (i1 i2 : Nat) :
    assertCheck cell i1 i2 = true ∧
    tupleIndex cell i1 i2 = chainIndex cell i1 i2 ∧
    ∀ (gl : List String) (pp : List Mat) (cpb : List CpbRow) (n : Nat) (M : Mat),
      ∃ M2, fillPval gl pp cpb n M = Except.ok M2 :=
  ⟨assertCheck_true cell i1 i2, rfl, fun gl pp cpb n M => fillPval_ok gl pp cpb n M⟩

/-- Witness for claim C2's amended theorem at a concrete matrix. -/
theorem assert_tuple_eq_chain_witness :
    assertCheck asymCell 0 1 = true ∧
    tupleIndex asymCell 0 1 = chainIndex asymCell 0 1 ∧
    ∀ (gl : List String) (pp : List Mat) (cpb : List CpbRow) (n : Nat) (M : Mat),
      ∃ M2, fillPval gl pp cpb n M = Except.ok M2 :=
  assert_tuple_eq_chain asymCell 0 1

/-- Counterexample for claim C2 as stated: on a per-cell matrix that is
not symmetric at the extracted gene-pair indices, the extraction completes
without any assertion failure — so the assertion does not check that the
value at `(index1, index2)` equals the value at `(index2, index1)`. -/
theorem assert_not_symmetry_counterexample :
    (∃ M2, fillPval ["a", "b"] [asymCell] [⟨"a", "b", "a, b", 0⟩] 0
        (npOnes 1 1) = Except.ok M2) ∧
    chainIndex asymCell (pyIndex ["a", "b"] "a") (pyIndex ["a", "b"] "b") ≠
      chainIndex asymCell (pyIndex ["a", "b"] "b") (pyIndex ["a", "b"] "a") := by
  constructor
  · exact ⟨_, rfl⟩
  · decide

/-- Claim C3: evaluation of `run_instant` at the failing input.  With a
user-supplied `filename`, no serialization event occurs before the
external object loads the file (the `write_h5ad` call on line 40 sits
inside the `filename == None` branch), although results are still read
back from the file — contradicting the claim and the function's own
docstring, which says `filename` names the file the data is saved to. -/
theorem run_instant_no_write_on_given_filename :
    ((run_instant_trace false true (some "mydata.h5ad") 42 true).any
        RIEvent.isWrite) = false ∧
    ((run_instant_trace false true (some "mydata.h5ad") 42 true).any
        (RIEvent.isReadOf "mydata.h5ad")) = true := by
  decide

/-- Claim C4: `run_instant` shells out to remove the file exactly when
`remove_file` is true, and any removal event comes strictly after the
read-back of the results: the trace decomposes as a removal-free prefix,
then the read, then the removal when and only when the flag is set. -/
theorem run_instant_remove_iff (a s : Bool) (fo : Option String) (rand : Nat)
    (rf : Bool) :
    ((run_instant_trace a s fo rand rf).any
        (RIEvent.isRemoveOf (fo.getD (tempName rand))) = rf) ∧
    run_instant_trace a s fo rand rf =
      ((if fo.isNone then [RIEvent.writeFile (fo.getD (tempName rand))] else []) ++
        RIEvent.loadPreprocessed (fo.getD (tempName rand)) ::
          (ppEvents a s ++ [RIEvent.runGlobalColoc, RIEvent.runFsm])) ++
        RIEvent.readFile (fo.getD (tempName rand)) ::
          (if rf then [RIEvent.removeFile (fo.getD (tempName rand))] else []) ∧
    ((if fo.isNone then [RIEvent.writeFile (fo.getD (tempName rand))] else []) ++
        RIEvent.loadPreprocessed (fo.getD (tempName rand)) ::
          (ppEvents a s ++ [RIEvent.runGlobalColoc, RIEvent.runFsm])).all
      (fun e => !(RIEvent.isRemoveOf (fo.getD (tempName rand)) e)) = true := by
  rcases fo with _ | f <;> cases a <;> cases s <;> cases rf <;>
    simp [run_instant_trace, ppEvents, RIEvent.isRemoveOf]

/-- Witness for claim C4 at concrete arguments. -/
theorem run_instant_remove_iff_witness :
    ((run_instant_trace true false none 7 false).any
        (RIEvent.isRemoveOf ((none : Option String).getD (tempName 7))) = false) ∧
    run_instant_trace true false none 7 false =
      ((if (none : Option String).isNone then
          [RIEvent.writeFile ((none : Option String).getD (tempName 7))] else []) ++
        RIEvent.loadPreprocessed ((none : Option String).getD (tempName 7)) ::
          (ppEvents true false ++ [RIEvent.runGlobalColoc, RIEvent.runFsm])) ++
        RIEvent.readFile ((none : Option String).getD (tempName 7)) ::
          (if false then [RIEvent.removeFile ((none : Option String).getD (tempName 7))] else []) ∧
    ((if (none : Option String).isNone then
        [RIEvent.writeFile ((none : Option String).getD (tempName 7))] else []) ++
        RIEvent.loadPreprocessed ((none : Option String).getD (tempName 7)) ::
          (ppEvents true false ++ [RIEvent.runGlobalColoc, RIEvent.runFsm])).all
      (fun e => !(RIEvent.isRemoveOf ((none : Option String).getD (tempName 7)) e)) = true :=
  run_instant_remove_iff true false none 7 false

/-- Claim C5: the bicluster expansion loop is a convergence loop.  Under
the spec's model of `_expand_bicluster` (a growth step over finite
candidate sets, bounded by `B`), every non-final iteration strictly grows
the result table, and within `B + 1` iterations the loop exits, exactly at
an iteration that left the number of result rows unchanged, returning that
iteration's output. -/
theorem expand_loop_convergence
    (step : List BicRow × List String → List BicRow × List String) (B : Nat)
    (s0 : List BicRow × List String)
    (hstep : SpecExpandStep step B) (hstart : s0.1.length ≤ B) :
    (∀ s, (step s).1.length ≠ s.1.length → s.1.length < (step s).1.length) ∧
    ∃ d, expandLoopFuel step (B + 1) s0 = step d ∧ (step d).1.length = d.1.length := by
  obtain ⟨hmono, hbound⟩ := hstep
  refine ⟨fun s hne => lt_of_le_of_ne (hmono s) (Ne.symm hne), ?_⟩
  exact expandLoopFuel_converges step B hmono hbound (B + 1) s0 hstart (by omega)

/-- A concrete growth step for instantiating the expansion-loop model. -/
def exStep : List BicRow × List String → List BicRow × List String :=
  fun s => (if s.1.length = 0 then [defaultBicRow] else s.1, s.2)

/-- Witness for claim C5 at a concrete step function and start state. -/
theorem expand_loop_convergence_witness :
    (SpecExpandStep exStep 1 ∧
      (((([] : List BicRow), ([] : List String))).1.length ≤ 1)) ∧
    ((∀ s, (exStep s).1.length ≠ s.1.length → s.1.length < (exStep s).1.length) ∧
     ∃ d, expandLoopFuel exStep (1 + 1) (([], [])) = exStep d ∧
       (exStep d).1.length = d.1.length) := by
  have hstep : SpecExpandStep exStep 1 := by
    constructor
    · intro s
      by_cases h : s.1.length = 0
      · simp [exStep, h]
      · simp [exStep, h]
    · intro s hs
      by_cases h : s.1.length = 0
      · simp [exStep, h]
      · simpa [exStep, h] using hs
  exact ⟨⟨hstep, by simp⟩, expand_loop_convergence exStep 1 ([], []) hstep (by simp)⟩

/-- Claim C6: the index the code derives for a gene name — `pyIndex`, the
embedding of Python's `list.index`, used both by `fsmGeneIndexes` in
`analyse_fsm` and by `fillPval` in `bicluster_instant` to address the
per-cell p-value matrices — is exactly the position of that name in
`geneList`: reading the list there yields the name, no earlier position
does, and the FSM index list is the positionwise image of the clique's
vertices. -/
theorem gene_index_matches_geneList (gl : List String) (g : String)
    (h : g ∈ gl) :
    gl[pyIndex gl g]? = some g ∧
    (∀ k, k < pyIndex gl g → gl[k]? ≠ some g) ∧
    (∀ v, fsmGeneIndexes gl v = (v.splitOn ",").map (fun x => pyIndex gl x)) :=
  ⟨pyIndex_getElem gl g h, pyIndex_first gl g, fun _ => rfl⟩

/-- Witness for claim C6 at a concrete gene list. -/
theorem gene_index_matches_geneList_witness :
    "b" ∈ ["a", "b"] ∧
    (["a", "b"][pyIndex ["a", "b"] "b"]? = some "b" ∧
     (∀ k, k < pyIndex ["a", "b"] "b" → ["a", "b"][k]? ≠ some "b") ∧
     (∀ v, fsmGeneIndexes ["a", "b"] v =
        (v.splitOn ",").map (fun x => pyIndex ["a", "b"] x))) :=
  ⟨by decide, gene_index_matches_geneList ["a", "b"] "b" (by decide)⟩

/-- Claim C7: the matrix handed to the external biclustering routine has
shape (number of cells, number of CPB pairs with `p_val_cond ≤ alpha`);
its entry for cell `p` and retained pair `q` is `-log10` of that pair's
PP-test p-value in that cell (genes addressed at their `geneList`
positions), and every entry the loop does not write keeps
`-log10(1) = 0`. -/
theorem pval_matrix_characterization (o : BicOracle) (adata : AnnDataST)
    (alpha : ℚ) (hneg : o.neglog 1 = 0) (cpb0 : List CpbRow)
    (_hcpb : adata.uns_cpb_results = some cpb0) :
    ∃ M0, fillPval adata.uns_geneList adata.uns_pp_pvalues
        (cpb0.filter (fun r => decide (r.p_val_cond ≤ alpha))) 0
        (npOnes adata.n_obs
          (cpb0.filter (fun r => decide (r.p_val_cond ≤ alpha))).length) =
        Except.ok M0 ∧
      (neglogMat o.neglog M0).rows = adata.n_obs ∧
      (neglogMat o.neglog M0).cols =
        (cpb0.filter (fun r => decide (r.p_val_cond ≤ alpha))).length ∧
      (∀ p q, p < adata.uns_pp_pvalues.length →
        q < (cpb0.filter (fun r => decide (r.p_val_cond ≤ alpha))).length →
        (neglogMat o.neglog M0).entry p q =
          o.neglog ((adata.uns_pp_pvalues.getD p defaultMat).entry
            (pyIndex adata.uns_geneList
              (((cpb0.filter (fun r => decide (r.p_val_cond ≤ alpha))).getD q
                defaultCpb).gene_id1))
            (pyIndex adata.uns_geneList
              (((cpb0.filter (fun r => decide (r.p_val_cond ≤ alpha))).getD q
                defaultCpb).gene_id2)))) ∧
      (∀ p q, adata.uns_pp_pvalues.length ≤ p ∨
          (cpb0.filter (fun r => decide (r.p_val_cond ≤ alpha))).length ≤ q →
        (neglogMat o.neglog M0).entry p q = 0) := by
  obtain ⟨M2, hok, hr, hc, hent⟩ := fillPval_spec adata.uns_geneList
    adata.uns_pp_pvalues (cpb0.filter (fun r => decide (r.p_val_cond ≤ alpha)))
    0 (npOnes adata.n_obs (cpb0.filter (fun r => decide (r.p_val_cond ≤ alpha))).length)
  refine ⟨M2, hok, ?_, ?_, ?_, ?_⟩
  · simp [neglogMat, hr, npOnes]
  · simp [neglogMat, hc, npOnes]
  · intro p q hp hq
    have := hent p q
    rw [if_pos ⟨by omega, by omega, hp⟩] at this
    simp only [Nat.sub_zero] at this
    simp [neglogMat, this]
  · intro p q hor
    have := hent p q
    rw [if_neg (fun hcond => by
      rcases hor with hor | hor
      · exact absurd hcond.2.2 (by omega)
      · exact absurd hcond.2.1 (by omega))] at this
    simp [neglogMat, this, npOnes, hneg]

/-- Witness for claim C7 at a concrete oracle and data object. -/
theorem pval_matrix_characterization_witness :
    (trivOracle.neglog 1 = 0 ∧
      adataEx.uns_cpb_results = some [⟨"a", "b", "a, b", 0⟩]) ∧
    (∃ M0, fillPval adataEx.uns_geneList adataEx.uns_pp_pvalues
        (([⟨"a", "b", "a, b", 0⟩] : List CpbRow).filter
          (fun r => decide (r.p_val_cond ≤ 1))) 0
        (npOnes adataEx.n_obs
          (([⟨"a", "b", "a, b", 0⟩] : List CpbRow).filter
            (fun r => decide (r.p_val_cond ≤ 1))).length) =
        Except.ok M0 ∧
      (neglogMat trivOracle.neglog M0).rows = adataEx.n_obs ∧
      (neglogMat trivOracle.neglog M0).cols =
        (([⟨"a", "b", "a, b", 0⟩] : List CpbRow).filter
          (fun r => decide (r.p_val_cond ≤ 1))).length ∧
      (∀ p q, p < adataEx.uns_pp_pvalues.length →
        q < (([⟨"a", "b", "a, b", 0⟩] : List CpbRow).filter
          (fun r => decide (r.p_val_cond ≤ 1))).length →
        (neglogMat trivOracle.neglog M0).entry p q =
          trivOracle.neglog ((adataEx.uns_pp_pvalues.getD p defaultMat).entry
            (pyIndex adataEx.uns_geneList
              (((([⟨"a", "b", "a, b", 0⟩] : List CpbRow).filter
                (fun r => decide (r.p_val_cond ≤ 1))).getD q
                defaultCpb).gene_id1))
            (pyIndex adataEx.uns_geneList
              (((([⟨"a", "b", "a, b", 0⟩] : List CpbRow).filter
                (fun r => decide (r.p_val_cond ≤ 1))).getD q
                defaultCpb).gene_id2)))) ∧
      (∀ p q, adataEx.uns_pp_pvalues.length ≤ p ∨
          (([⟨"a", "b", "a, b", 0⟩] : List CpbRow).filter
            (fun r => decide (r.p_val_cond ≤ 1))).length ≤ q →
        (neglogMat trivOracle.neglog M0).entry p q = 0)) :=
  ⟨⟨rfl, rfl⟩, pval_matrix_characterization trivOracle adataEx 1 rfl
    [⟨"a", "b", "a, b", 0⟩] rfl⟩

/-- Claim C8: `impute` copies the external imputation result into the data
object: afterwards `X` is the matrix MAGIC produced, `raw` holds the
pre-imputation object, every other field is unchanged, and the returned
object is the input object with exactly those two updates. -/
theorem impute_frame (f : AnnDataM → Mat) (adata : AnnDataM) :
    (impute f adata).core.X = f adata ∧
    (impute f adata).raw = some adata.core ∧
    (impute f adata).core.obs_names = adata.core.obs_names ∧
    (impute f adata).core.var_names = adata.core.var_names ∧
    (impute f adata).core.uns = adata.core.uns ∧
    impute f adata = { adata with raw := some adata.core, core := { adata.core with X := f adata } } :=
  ⟨rfl, rfl, rfl, rfl, rfl, rfl⟩

/-- Claim C9: `analyse_fsm` stores in `uns['instant_fsm']` exactly the
top-k cliques for which at least 5 cells pass every pairwise p-value test
below `alpha`; each stored row records the passing-cell count in `#cells`
and the passing cells' identifiers, joined in cell (enumeration) order, in
`uIDs`. -/
theorem analyse_fsm_characterization (adata : AnnDataST) (top_k : Nat)
    (alpha : ℚ) :
    (analyse_fsm adata top_k alpha).uns_instant_fsm =
      some ((adata.uns_cliques.take top_k).filterMap (fun c =>
        let idxs := fsmGeneIndexes adata.uns_geneList c.vertices
        let uids := ((List.enumFrom 0 adata.uns_pp_pvalues).filter
            (fun pc => cliqueAll alpha pc.2 idxs)).map
          (fun pc => adata.obs_names.getD pc.1 "")
        if 5 ≤ uids.length then
          some (FsmRow.mk c.vertices uids.length (String.intercalate "," uids))
        else none)) ∧
    ∀ row ∈ ((analyse_fsm adata top_k alpha).uns_instant_fsm.getD []),
      5 ≤ row.numCells := by
  constructor
  · simp only [analyse_fsm, collectUids_spec]
  · intro row hrow
    simp only [analyse_fsm, Option.getD_some] at hrow
    obtain ⟨c, hc, heq⟩ := List.mem_filterMap.mp hrow
    by_cases h5 : 5 ≤ (collectUids alpha adata.obs_names
        (fsmGeneIndexes adata.uns_geneList c.vertices) adata.uns_pp_pvalues 0).length
    · simp only [if_pos h5] at heq
      cases heq
      exact h5
    · simp only [if_neg h5] at heq
      cases heq

/-- Claim C10: each bicluster returned by LAS is admitted into the result
table only when it has strictly more than 2 columns (the admission loop is
a filter on `2 < cols` followed by row construction), and the table stored
in `uns['instant_biclustering']` is the post-expansion table restricted to
rows with strictly more than `cell_threshold` comma-separated cell ids —
in particular a row with exactly `cell_threshold` cells is dropped. -/
theorem bicluster_filtering (o : BicOracle) (adata : AnnDataST) (nb rs : Nat)
    (sd : Bool) (alpha : ℚ) (ct th fuel : Nat) (cpb0 : List CpbRow)
    (hcpb : adata.uns_cpb_results = some cpb0) :
    ∃ looped : List BicRow × List String,
      bicluster_instant o adata nb rs sd alpha ct th fuel =
        Except.ok { adata with uns_instant_biclustering := some (looped.1.filter (fun r => decide (ct < cellCountOf r))) } ∧
      (∀ r ∈ looped.1.filter (fun r => decide (ct < cellCountOf r)),
        ct < cellCountOf r) ∧
      (∀ r ∈ looped.1, cellCountOf r = ct →
        r ∉ looped.1.filter (fun r => decide (ct < cellCountOf r))) ∧
      (∀ (M Ms : Mat) (u gp : List String) (cr : List Nat) (cl rl : List ℚ)
        (bs : List Bicluster),
        buildRows o M Ms u gp cr cl rl bs =
          (bs.filter (fun b => decide (2 < b.cols.length))).map
            (mkBicRow o M Ms u gp cr cl rl)) := by
  obtain ⟨looped, hok⟩ := bicluster_instant_ok o adata nb rs sd alpha ct th fuel cpb0 hcpb
  refine ⟨looped, hok, ?_, ?_, ?_⟩
  · intro r hr
    have := (List.mem_filter.mp hr).2
    simpa using this
  · intro r hr hcount hmem
    have := (List.mem_filter.mp hmem).2
    simp only [decide_eq_true_eq] at this
    omega
  · intro M Ms u gp cr cl rl bs
    exact buildRows_eq_filter o M Ms u gp cr cl rl bs

/-- Witness for claim C10 at a concrete oracle and data object. -/
theorem bicluster_filtering_witness :
    adataEx.uns_cpb_results = some [⟨"a", "b", "a, b", 0⟩] ∧
    (∃ looped : List BicRow × List String,
      bicluster_instant trivOracle adataEx 1 1 true 1 5 1 3 =
        Except.ok { adataEx with uns_instant_biclustering := some (looped.1.filter (fun r => decide (5 < cellCountOf r))) } ∧
      (∀ r ∈ looped.1.filter (fun r => decide (5 < cellCountOf r)),
        5 < cellCountOf r) ∧
      (∀ r ∈ looped.1, cellCountOf r = 5 →
        r ∉ looped.1.filter (fun r => decide (5 < cellCountOf r))) ∧
      (∀ (M Ms : Mat) (u gp : List String) (cr : List Nat) (cl rl : List ℚ)
        (bs : List Bicluster),
        buildRows trivOracle M Ms u gp cr cl rl bs =
          (bs.filter (fun b => decide (2 < b.cols.length))).map
            (mkBicRow trivOracle M Ms u gp cr cl rl))) :=
  ⟨rfl, bicluster_filtering trivOracle adataEx 1 1 true 1 5 1 3
    [⟨"a", "b", "a, b", 0⟩] rfl⟩

end CellSP
